import Mathlib

/-!
Verification development for the rgit indexing and storage subsystem.

The definitions below are a shallow embedding of the Rust source:
  - src/database/schema/commit.rs   (CommitTree: len, fetch_latest_one,
    fetch_latest, insert, update_counter, drop_commits)
  - src/database/indexer.rs         (branch_index_update, the single-ref
    update routine, and update_repository_metadata's description handling)
  - src/database/schema/tree.rs     (TreeItem::insert / find_prefix key
    layout, SortedTree::insert key layout)
  - src/database/schema/repository.rs (ArchivedRepository::delete range
    bounds)
  - src/main.rs                     (open_db: schema gate and the column
    family open list)

Machine integers are modelled as Nat with explicit `% 256` where u8
overflow matters; byte strings are `List Nat` with every element < 256 at
the points that matter; RocksDB's bytewise comparator is the lexicographic
order `lexLtB` below (shorter prefix sorts first).
-/

/-! ## Byte-string utilities (RocksDB bytewise key order) -/

/-- Strict bytewise lexicographic order on keys, as RocksDB's default
comparator: compare byte by byte, a strict prefix sorts first. -/
def lexLtB : List Nat → List Nat → Bool
  | [], [] => false
  | [], _ :: _ => true
  | _ :: _, [] => false
  | a :: as, b :: bs => a < b || (a = b && lexLtB as bs)

/-- `startsWithB p k` holds when `p` is a prefix of the key `k`. -/
def startsWithB : List Nat → List Nat → Bool
  | [], _ => true
  | _ :: _, [] => false
  | a :: as, b :: bs => a = b && startsWithB as bs

/-- Big-endian byte encoding of `n` on `w` bytes (`u64::to_be_bytes` with
`w = 8`, `usize::to_be_bytes` likewise on the 64-bit target). -/
def beBytes : Nat → Nat → List Nat
  | 0, _ => []
  | w + 1, n => beBytes w (n / 256) ++ [n % 256]

/-- Native-endian byte encoding of a u64 (`to_ne_bytes`): the target
machines are little-endian, so this is the byte-reverse of big-endian. -/
def neBytes (n : Nat) : List Nat := (beBytes 8 n).reverse

/-- `*end.last_mut().unwrap() += 1` on a byte slice: increments the final
byte, with u8 wrap-around on 0xFF (release-build semantics). -/
def incLastByte (bs : List Nat) : List Nat :=
  bs.dropLast ++ [(bs.getLast?.getD 0 + 1) % 256]

theorem lexLtB_nil_cons (b : Nat) (bs : List Nat) : lexLtB [] (b :: bs) = true := rfl

theorem lexLtB_append_last (p : List Nat) (x y : Nat) :
    lexLtB (p ++ [x]) (p ++ [y]) = decide (x < y) := by
  induction p with
  | nil => simp [lexLtB]
  | cons a p ih => simp [lexLtB, ih]

theorem beBytes_length (w n : Nat) : (beBytes w n).length = w := by
  induction w generalizing n with
  | zero => rfl
  | succ w ih => simp [beBytes, ih]

theorem beBytes_mod (w m n : Nat) (hm : m < 256 ^ w) (hn : n < 256 ^ w)
    (h : beBytes w m = beBytes w n) : m = n := by
  induction w generalizing m n with
  | zero =>
    simp [pow_zero] at hm hn
    omega
  | succ w ih =>
    simp only [beBytes] at h
    have hlen : (beBytes w (m / 256)).length = (beBytes w (n / 256)).length := by
      simp [beBytes_length]
    obtain ⟨h1, h2⟩ := List.append_inj h hlen
    have hm' : m / 256 < 256 ^ w := by
      have : 256 ^ (w + 1) = 256 ^ w * 256 := by ring
      omega
    have hn' : n / 256 < 256 ^ w := by
      have : 256 ^ (w + 1) = 256 ^ w * 256 := by ring
      omega
    have := ih (m / 256) (n / 256) hm' hn' h1
    have hlast : m % 256 = n % 256 := by simpa using h2
    omega

/-- Half-open range membership `start ≤ key < stop` under the bytewise
order, with `stop` obtained from `start` by bumping the final byte, is
exactly "key starts with `start`". -/
theorem mem_range_iff_startsWith (p : List Nat) (b : Nat) (key : List Nat) :
    ((!lexLtB key (p ++ [b])) && lexLtB key (p ++ [b + 1]))
      = startsWithB (p ++ [b]) key := by
  induction p generalizing key with
  | nil =>
    cases key with
    | nil => simp [lexLtB, startsWithB]
    | cons k ks =>
      simp only [List.nil_append, lexLtB, startsWithB]
      cases ks with
      | nil =>
        by_cases h1 : k < b
        · simp [lexLtB, h1]; omega
        · by_cases h2 : k = b <;> simp [lexLtB, h1, h2] <;> omega
      | cons k2 ks2 =>
        by_cases h1 : k < b
        · simp [lexLtB, h1]; omega
        · by_cases h2 : k = b <;> simp [lexLtB, h1, h2] <;> omega
  | cons a p ih =>
    cases key with
    | nil => simp [lexLtB, startsWithB]
    | cons k ks =>
      simp only [List.cons_append, lexLtB, startsWithB]
      by_cases h1 : k < a
      · simp [h1]; omega
      · by_cases h2 : k = a
        · subst h2
          simpa using ih ks
        · have h3 : a < k := by omega
          simp [h1, h2]
          omega

/-! ## Per-ref commit storage state

`RefState` models, for one `(repo_id, ref)` prefix, the slice of the
`commit` column family under that prefix (`rows`, keyed by the 8-byte
big-endian sequence number, here a `Nat`) together with the entry of the
`commit_count` family at that prefix (`counter`).  Commits themselves are
reduced to their hash (a `Nat`): the single-ref update routine only ever
inspects the hash of a stored commit. -/

structure RefState where
  counter : Option Nat
  rows : Nat → Option Nat

/-- `CommitTree::len`: read the commit-count entry, absent means 0. -/
def lenOf (s : RefState) : Nat := s.counter.getD 0

/-- `CommitTree::fetch_latest_one`: read the row at `len - 1`
(saturating subtraction, as `u64::saturating_sub`). -/
def fetchLatestOne (s : RefState) : Option Nat := s.rows (lenOf s - 1)

/-- `CommitTree::drop_commits`: range-delete every row under the prefix and
delete the commit-count entry. -/
def dropCommits (_s : RefState) : RefState := ⟨none, fun _ => none⟩

/-- The revisions emitted by the forward sweep of `branch_index_update`:
with no previously indexed commit everything is emitted; otherwise
revisions are skipped up to and including the first occurrence of the
previously indexed hash, and everything after it is emitted (nothing, if
that hash never occurs in the walk). -/
def emittedFor (latest : Option Nat) (walk : List Nat) : List Nat :=
  match latest with
  | none => walk
  | some h => if h ∈ walk then (walk.dropWhile (fun x => x ≠ h)).tail else []

/-- The `seen` flag after the sweep: set on the first emitted revision. -/
def seenFor (latest : Option Nat) (walk : List Nat) : Bool :=
  match latest with
  | none => !walk.isEmpty
  | some h => h ∈ walk

/-- The early-return check of `branch_index_update`: the latest indexed
commit exists and its hash equals the live tip (the last element of the
forward-ordered walk). -/
def earlyFor (latest : Option Nat) (walk : List Nat) : Bool :=
  match latest, walk.getLast? with
  | some h, some t => h = t
  | _, _ => false

/-- Batched `CommitTree::insert` calls: row `base + i` receives the i-th
emitted commit. -/
def writeRows (rows : Nat → Option Nat) (base : Nat) (em : List Nat) :
    Nat → Option Nat :=
  fun k => if base ≤ k ∧ k < base + em.length then some (em.getD (k - base) 0) else rows k

/-- Result of one pass of `branch_index_update`: final per-ref state, the
early-return flag ("no commits since last index") and the `seen` flag. -/
structure PassOut where
  state : RefState
  early : Bool
  seen : Bool

/-- One pass of `branch_index_update` (src/database/indexer.rs): optional
`drop_commits` when `force_reindex` is set, the tips-match early return,
then the chunked sweep that inserts emitted commits at `tree_len + i` and
rewrites the commit-count to `tree_len + i` after each chunk.  The counter
is written whenever the walk is non-empty (the chunk loop runs over the
whole walk, skipped revisions included); its final value is
`tree_len + emitted`. -/
def singlePass (s0 : RefState) (walk : List Nat) (force : Bool) : PassOut :=
  let s := if force then dropCommits s0 else s0
  let latest := fetchLatestOne s
  if earlyFor latest walk then ⟨s, true, true⟩
  else
    let treeLen := lenOf s
    let em := emittedFor latest walk
    ⟨⟨if walk.isEmpty then s.counter else some (treeLen + em.length),
      writeRows s.rows treeLen em⟩, false, seenFor latest walk⟩

/-- Outcome of the full single-ref update routine: final state, whether the
tips-match early return fired, whether the `force_reindex` retry ran, and
whether the routine returned `Ok` (every return site of the Rust routine
is `Ok`; its `Err`s only propagate git/storage I/O failures, which this
embedding treats as absent). -/
structure UpdateOut where
  state : RefState
  early : Bool
  retried : Bool
  isOk : Bool

/-- `branch_index_update` called with `force_reindex = false`, including
its single self-retry with `force_reindex = true` when the previously
indexed tip was never seen during the sweep.  The retried pass cannot
recurse again: the retry is guarded by `!seen && !force_reindex`. -/
def branchIndexUpdate (s : RefState) (walk : List Nat) : UpdateOut :=
  let p1 := singlePass s walk false
  if p1.early then ⟨p1.state, true, false, true⟩
  else if p1.seen then ⟨p1.state, false, false, true⟩
  else ⟨(singlePass p1.state walk true).state, false, true, true⟩

/-- `update_repository_reflog`: each valid ref of each repository gets its
own `branch_index_update` call; a failed call is logged and the loop moves
on to the next ref. -/
def reflogDriver (refs : List (RefState × List Nat)) : List UpdateOut :=
  refs.map (fun q => branchIndexUpdate q.1 q.2)

/-- The C1 invariant: rows exist exactly at sequence numbers below the
stored commit count (dense from 0, counter authoritative). -/
def CommitInv (s : RefState) : Prop := ∀ k, (s.rows k).isSome ↔ k < lenOf s

/-! ## ArchivedRepository::delete range bounds (C9)

`ArchivedRepository::delete` (src/database/schema/repository.rs) computes
`start_id = id.to_be_bytes()`, copies it, increments the final byte, and
issues `delete_range_cf(start_id, end_id)` on the commit and tag families. -/

/-- The inclusive lower bound of the delete range: the 8-byte big-endian
repository id. -/
def deleteRangeStart (id : Nat) : List Nat := beBytes 8 id

/-- The exclusive upper bound: the lower bound with its final byte
incremented. -/
def deleteRangeStop (id : Nat) : List Nat := incLastByte (beBytes 8 id)

/-- Membership of a key in the half-open range passed to
`delete_range_cf`. -/
def inDeleteRange (id : Nat) (key : List Nat) : Bool :=
  !lexLtB key (deleteRangeStart id) && lexLtB key (deleteRangeStop id)

theorem beBytes_eight_split (id : Nat) :
    beBytes 8 id = beBytes 7 (id / 256) ++ [id % 256] := rfl

theorem incLastByte_beBytes (id : Nat) :
    incLastByte (beBytes 8 id) = beBytes 7 (id / 256) ++ [(id % 256 + 1) % 256] := by
  rw [beBytes_eight_split]
  unfold incLastByte
  rw [List.dropLast_concat, List.getLast?_concat]
  rfl

theorem beBytes_seven_ne_succ (m : Nat) : beBytes 7 m ≠ beBytes 7 (m + 1) := by
  intro h
  have hsplit : beBytes 7 m = beBytes 6 (m / 256) ++ [m % 256] := rfl
  have hsplit2 : beBytes 7 (m + 1) = beBytes 6 ((m + 1) / 256) ++ [(m + 1) % 256] := rfl
  rw [hsplit, hsplit2] at h
  have hlen : (beBytes 6 (m / 256)).length = (beBytes 6 ((m + 1) / 256)).length := by
    simp [beBytes_length]
  obtain ⟨-, h2⟩ := List.append_inj h hlen
  have : m % 256 = (m + 1) % 256 := by simpa using h2
  omega

/-- Claim C9: `ArchivedRepository::delete` bounds its commit-family and
tag-family range deletes by copying the 8-byte big-endian repository id
and incrementing its final byte.  When the id's least-significant byte is
not 0xFF this produces the exact prefix successor, so a key falls in the
deleted range exactly when it is prefixed by the repository id; when the
least-significant byte is 0xFF the increment overflows the u8 (the final
byte is 255 and 255 + 1 wraps), the wrapped bound is not the numeric
successor's encoding, and it even precedes the range start — the routine
is only correct under the precondition `id % 256 ≠ 255`. -/
theorem c9_delete_range_exact (id : Nat) :
    (id % 256 ≠ 255 →
      deleteRangeStop id = beBytes 8 (id + 1) ∧
      ∀ key, inDeleteRange id key = startsWithB (beBytes 8 id) key) ∧
    (id % 256 = 255 →
      (beBytes 8 id).getLast?.getD 0 = 255 ∧
      deleteRangeStop id ≠ beBytes 8 (id + 1) ∧
      lexLtB (deleteRangeStop id) (deleteRangeStart id) = true) := by
  constructor
  · intro h
    have hmod : id % 256 < 256 := Nat.mod_lt _ (by omega)
    have hstep : (id % 256 + 1) % 256 = id % 256 + 1 := by omega
    have hinc : deleteRangeStop id = beBytes 7 (id / 256) ++ [id % 256 + 1] := by
      unfold deleteRangeStop
      rw [incLastByte_beBytes, hstep]
    constructor
    · rw [hinc, beBytes_eight_split (id + 1)]
      have h1 : (id + 1) / 256 = id / 256 := by omega
      have h2 : (id + 1) % 256 = id % 256 + 1 := by omega
      rw [h1, h2]
    · intro key
      unfold inDeleteRange deleteRangeStart
      rw [hinc, beBytes_eight_split id]
      exact mem_range_iff_startsWith _ _ key
  · intro h
    have hlast : (beBytes 8 id).getLast?.getD 0 = 255 := by
      rw [beBytes_eight_split]
      rw [List.getLast?_concat]
      simpa using h
    refine ⟨hlast, ?_, ?_⟩
    · have hinc : deleteRangeStop id = beBytes 7 (id / 256) ++ [0] := by
        unfold deleteRangeStop
        rw [incLastByte_beBytes, h]
      have h2 : beBytes 8 (id + 1) = beBytes 7 (id / 256 + 1) ++ [0] := by
        rw [beBytes_eight_split (id + 1)]
        have e1 : (id + 1) / 256 = id / 256 + 1 := by omega
        have e2 : (id + 1) % 256 = 0 := by omega
        rw [e1, e2]
      rw [hinc, h2]
      intro heq
      have hlen : (beBytes 7 (id / 256)).length = (beBytes 7 (id / 256 + 1)).length := by
        simp [beBytes_length]
      obtain ⟨h1, -⟩ := List.append_inj heq hlen
      exact beBytes_seven_ne_succ _ h1
    · have hinc : deleteRangeStop id = beBytes 7 (id / 256) ++ [0] := by
        unfold deleteRangeStop
        rw [incLastByte_beBytes, h]
      unfold deleteRangeStart
      rw [hinc, beBytes_eight_split id, h, lexLtB_append_last]
      simp

theorem c9_delete_range_exact_witness :
    (deleteRangeStop 3 = beBytes 8 4 ∧
      ∀ key, inDeleteRange 3 key = startsWithB (beBytes 8 3) key) ∧
    ((beBytes 8 255).getLast?.getD 0 = 255 ∧
      deleteRangeStop 255 ≠ beBytes 8 256 ∧
      lexLtB (deleteRangeStop 255) (deleteRangeStart 255) = true) :=
  ⟨(c9_delete_range_exact 3).1 (by decide),
   (c9_delete_range_exact 255).2 (by decide)⟩

/-! ## Lemmas about the single-ref update pass -/

theorem earlyFor_none (walk : List Nat) : earlyFor none walk = false := by
  unfold earlyFor
  cases walk.getLast? <;> rfl

theorem emittedFor_nil (latest : Option Nat) : emittedFor latest [] = [] := by
  cases latest <;> simp [emittedFor]

theorem singlePass_false_early (s : RefState) (walk : List Nat)
    (h : earlyFor (fetchLatestOne s) walk = true) :
    singlePass s walk false = ⟨s, true, true⟩ := by
  simp [singlePass, h]

theorem singlePass_false_not_early (s : RefState) (walk : List Nat)
    (h : earlyFor (fetchLatestOne s) walk = false) :
    singlePass s walk false =
      ⟨⟨if walk.isEmpty then s.counter
          else some (lenOf s + (emittedFor (fetchLatestOne s) walk).length),
        writeRows s.rows (lenOf s) (emittedFor (fetchLatestOne s) walk)⟩,
       false, seenFor (fetchLatestOne s) walk⟩ := by
  simp [singlePass, h]

theorem singlePass_true_eq (s : RefState) (walk : List Nat) :
    singlePass s walk true =
      ⟨⟨if walk.isEmpty then none else some walk.length,
        writeRows (fun _ => none) 0 walk⟩,
       false, !walk.isEmpty⟩ := by
  have h0 : fetchLatestOne ⟨none, fun _ => none⟩ = none := rfl
  simp [singlePass, dropCommits, h0, earlyFor_none, emittedFor, lenOf, seenFor]

theorem singlePass_true_rows (s : RefState) (walk : List Nat) (k : Nat) :
    (singlePass s walk true).state.rows k =
      if k < walk.length then some (walk.getD k 0) else none := by
  rw [singlePass_true_eq]
  simp [writeRows]

theorem commitInv_singlePass_true (s : RefState) (walk : List Nat) :
    CommitInv (singlePass s walk true).state := by
  intro k
  rw [singlePass_true_rows]
  unfold lenOf
  rw [singlePass_true_eq]
  by_cases hw : walk.isEmpty
  · have hnil : walk = [] := by simpa using hw
    subst hnil
    simp
  · by_cases hk : k < walk.length
    · simp [hw, hk]
    · simp [hw, hk]

theorem writeRows_isSome (rows : Nat → Option Nat) (base : Nat) (em : List Nat) (k : Nat) :
    (writeRows rows base em k).isSome
      = (decide (base ≤ k ∧ k < base + em.length) || (rows k).isSome) := by
  unfold writeRows
  by_cases h : base ≤ k ∧ k < base + em.length <;> simp [h]

theorem commitInv_singlePass_false (s : RefState) (walk : List Nat) (h : CommitInv s) :
    CommitInv (singlePass s walk false).state := by
  by_cases he : earlyFor (fetchLatestOne s) walk = true
  · rw [singlePass_false_early s walk he]
    exact h
  · rw [singlePass_false_not_early s walk (by simpa using he)]
    intro k
    have hs := h k
    unfold lenOf at hs ⊢
    simp only [writeRows_isSome, Bool.or_eq_true, decide_eq_true_eq]
    rw [hs]
    by_cases hw : walk.isEmpty
    · have hnil : walk = [] := by simpa using hw
      subst hnil
      rw [emittedFor_nil]
      simp only [List.isEmpty_nil, if_true, List.length_nil]
      omega
    · simp only [hw, Bool.false_eq_true, if_false, Option.getD_some]
      omega

theorem earlyFor_eq_true_iff (latest : Option Nat) (walk : List Nat) :
    earlyFor latest walk = true ↔ ∃ t, latest = some t ∧ walk.getLast? = some t := by
  unfold earlyFor
  cases latest with
  | none => cases hl : walk.getLast? <;> simp [hl]
  | some h => cases hl : walk.getLast? <;> simp [hl, eq_comm]

theorem branchIndexUpdate_early (s : RefState) (walk : List Nat)
    (he : earlyFor (fetchLatestOne s) walk = true) :
    branchIndexUpdate s walk = ⟨s, true, false, true⟩ := by
  unfold branchIndexUpdate
  rw [singlePass_false_early s walk he]
  rfl

theorem branchIndexUpdate_seen (s : RefState) (walk : List Nat)
    (he : earlyFor (fetchLatestOne s) walk = false)
    (hs : seenFor (fetchLatestOne s) walk = true) :
    branchIndexUpdate s walk =
      ⟨⟨if walk.isEmpty then s.counter
          else some (lenOf s + (emittedFor (fetchLatestOne s) walk).length),
        writeRows s.rows (lenOf s) (emittedFor (fetchLatestOne s) walk)⟩,
       false, false, true⟩ := by
  unfold branchIndexUpdate
  rw [singlePass_false_not_early s walk he]
  simp [hs]

theorem branchIndexUpdate_diverged (s : RefState) (walk : List Nat)
    (he : earlyFor (fetchLatestOne s) walk = false)
    (hs : seenFor (fetchLatestOne s) walk = false) :
    branchIndexUpdate s walk =
      ⟨⟨if walk.isEmpty then none else some walk.length,
        writeRows (fun _ => none) 0 walk⟩,
       false, true, true⟩ := by
  unfold branchIndexUpdate
  rw [singlePass_false_not_early s walk he]
  simp only [hs, Bool.false_eq_true, if_false]
  rw [singlePass_true_eq]

theorem branchIndexUpdate_state_cases (s : RefState) (walk : List Nat) :
    (branchIndexUpdate s walk).state = (singlePass s walk false).state ∨
    (branchIndexUpdate s walk).state
      = (singlePass (singlePass s walk false).state walk true).state := by
  unfold branchIndexUpdate
  by_cases e : (singlePass s walk false).early <;>
    by_cases sn : (singlePass s walk false).seen <;> simp [e, sn]

/-- Claim C1: for every `(repo_id, ref)` prefix, a completed run of the
single-ref update routine preserves the density invariant — the value in
the commit-count family equals the number of commit rows under the
prefix, which are keyed exactly at 0, 1, …, count−1 with no gaps.
Concretely: if the invariant held before the cycle (as it does for a
fresh ref and, inductively, after every prior cycle), it holds after, and
whenever the stored count is `c` the set of populated sequence numbers is
exactly `[0, c)` and has exactly `c` elements. -/
theorem c1_commit_count_dense (s : RefState) (walk : List Nat) (h : CommitInv s) :
    CommitInv (branchIndexUpdate s walk).state ∧
    ∀ c, (branchIndexUpdate s walk).state.counter = some c →
      ({k | ((branchIndexUpdate s walk).state.rows k).isSome} = Set.Iio c ∧
        {k | ((branchIndexUpdate s walk).state.rows k).isSome}.ncard = c) := by
  have hinv : CommitInv (branchIndexUpdate s walk).state := by
    rcases branchIndexUpdate_state_cases s walk with hq | hq <;> rw [hq]
    · exact commitInv_singlePass_false s walk h
    · exact commitInv_singlePass_true _ _
  refine ⟨hinv, ?_⟩
  intro c hc
  have hset : {k | ((branchIndexUpdate s walk).state.rows k).isSome} = Set.Iio c := by
    ext k
    have hk := hinv k
    unfold lenOf at hk
    rw [hc] at hk
    simpa [Set.mem_Iio] using hk
  refine ⟨hset, ?_⟩
  rw [hset, ← Finset.coe_Iio, Set.ncard_coe_Finset, Nat.card_Iio]

theorem c1_commit_count_dense_witness :
    CommitInv ⟨none, fun _ => none⟩ ∧
    (CommitInv (branchIndexUpdate ⟨none, fun _ => none⟩ [5, 6]).state ∧
      ∀ c, (branchIndexUpdate ⟨none, fun _ => none⟩ [5, 6]).state.counter = some c →
        ({k | ((branchIndexUpdate ⟨none, fun _ => none⟩ [5, 6]).state.rows k).isSome}
            = Set.Iio c ∧
          {k | ((branchIndexUpdate ⟨none, fun _ => none⟩ [5, 6]).state.rows k).isSome}.ncard
            = c)) :=
  ⟨fun k => by simp [lenOf],
   c1_commit_count_dense ⟨none, fun _ => none⟩ [5, 6] (fun k => by simp [lenOf])⟩

/-! ## Force reindex (C3) and divergence retry (C5) -/

/-- A pre-populated ref: two indexed commits (hashes 10 and 11), counter 2,
whose history is then force-pushed away (see demoWalk). -/
def demoState : RefState :=
  ⟨some 2, fun k => if k = 0 then some 10 else if k = 1 then some 11 else none⟩

/-- A rewritten history for the demo ref: three commits whose hashes
(20, 21, 22) do not include the previously indexed tip 11. -/
def demoWalk : List Nat := [20, 21, 22]

/-- Claim C3 counterexample: starting from a ref with pre-drop commit
count 2 and a rewritten walk of three commits, the routine detects the
divergence and retries with `force_reindex = true`; the retried pass
re-inserts the walked commits at sequence numbers 0, 1, 2 — not at
2, 3, 4 as the claim ("re-inserts … starting from the pre-drop commit
count, not from zero") predicts: row 0 holds the first walked commit and
rows 3 and 4 are empty, with the counter at 3. -/
theorem c3_force_reindex_counterexample :
    lenOf demoState = 2 ∧
    (branchIndexUpdate demoState demoWalk).retried = true ∧
    (branchIndexUpdate demoState demoWalk).state.rows 0 = some 20 ∧
    (branchIndexUpdate demoState demoWalk).state.rows 2 = some 22 ∧
    (branchIndexUpdate demoState demoWalk).state.rows 3 = none ∧
    (branchIndexUpdate demoState demoWalk).state.rows 4 = none ∧
    (branchIndexUpdate demoState demoWalk).state.counter = some 3 := by
  decide

/-- Claim C3 (amended): when the single-ref update runs with
`force_reindex = true`, `drop_commits` deletes the entire key range
`[prefix, prefix+1)` on the commit family (the prefix ends in the 0x00
separator, so bumping the final byte yields the exact successor) and
also deletes the ref's commit-count entry; the walked commits are then
re-inserted at sequence numbers starting from the post-drop count — zero
— not from the pre-drop count, and the counter finishes at the walk
length. -/
theorem c3_force_reindex_starts_at_zero (s : RefState) (walk : List Nat) :
    (singlePass s walk true).state.counter
        = (if walk.isEmpty then none else some walk.length) ∧
    (∀ k, (singlePass s walk true).state.rows k
        = if k < walk.length then some (walk.getD k 0) else none) ∧
    (∀ p : List Nat, incLastByte (p ++ [0]) = p ++ [1]) := by
  refine ⟨?_, singlePass_true_rows s walk, ?_⟩
  · rw [singlePass_true_eq]
  · intro p
    unfold incLastByte
    rw [List.dropLast_concat, List.getLast?_concat]
    rfl

theorem earlyFor_not_mem (hsh : Nat) (walk : List Nat) (h : hsh ∉ walk) :
    earlyFor (some hsh) walk = false := by
  rw [← Bool.not_eq_true]
  intro he
  obtain ⟨t, ht1, ht2⟩ := (earlyFor_eq_true_iff _ _).1 he
  obtain rfl : hsh = t := by simpa using ht1
  exact h (List.mem_of_getLast?_eq_some ht2)

/-- Claim C5 counterexample: a ref whose previously indexed tip (hash 11)
is absent from the rewritten walk.  The first pass fails to observe the
tip and the routine retries with `force_reindex = true`; the second pass
also never observes that tip (it is not in the walk, and the dropped
index no longer records it), yet the routine completes successfully
(`Ok`) rather than raising an error, contrary to "a second pass that
again fails to observe the tip is an error for that ref". -/
theorem c5_diverged_counterexample :
    fetchLatestOne demoState = some 11 ∧
    (11 ∈ demoWalk) = False ∧
    (branchIndexUpdate demoState demoWalk).retried = true ∧
    (branchIndexUpdate demoState demoWalk).isOk = true := by
  refine ⟨rfl, by simp [demoWalk], ?_, ?_⟩ <;> decide

/-- Claim C5 (amended): for every ref whose previously indexed tip is not
observed during the forward sweep, the routine retries exactly once with
`force_reindex = true`; the retried pass, operating on the dropped state,
cannot fail to observe a previous tip (none is recorded any more), never
recurses again, and returns `Ok` with the walk fully re-indexed.  Refs
are processed independently: the surrounding loop updates every other
ref regardless of this ref's outcome. -/
theorem c5_force_retry_once (s : RefState) (walk : List Nat) (hsh : Nat)
    (h1 : fetchLatestOne s = some hsh) (h2 : hsh ∉ walk) :
    (branchIndexUpdate s walk).retried = true ∧
    (branchIndexUpdate s walk).isOk = true ∧
    (branchIndexUpdate s walk).state.counter
        = (if walk.isEmpty then none else some walk.length) ∧
    (∀ k, (branchIndexUpdate s walk).state.rows k
        = if k < walk.length then some (walk.getD k 0) else none) ∧
    (∀ pre post, reflogDriver (pre ++ (s, walk) :: post)
        = reflogDriver pre ++ branchIndexUpdate s walk :: reflogDriver post) := by
  have he : earlyFor (fetchLatestOne s) walk = false := by
    rw [h1]
    exact earlyFor_not_mem hsh walk h2
  have hs : seenFor (fetchLatestOne s) walk = false := by
    rw [h1]
    simp [seenFor, h2]
  have hb := branchIndexUpdate_diverged s walk he hs
  rw [hb]
  refine ⟨rfl, rfl, rfl, ?_, ?_⟩
  · intro k
    show writeRows (fun _ => none) 0 walk k = _
    simp [writeRows]
  · intro pre post
    simp [reflogDriver, hb]

theorem c5_force_retry_once_witness :
    (branchIndexUpdate demoState demoWalk).retried = true ∧
    (branchIndexUpdate demoState demoWalk).isOk = true ∧
    (branchIndexUpdate demoState demoWalk).state.counter
        = (if demoWalk.isEmpty then none else some demoWalk.length) ∧
    (∀ k, (branchIndexUpdate demoState demoWalk).state.rows k
        = if k < demoWalk.length then some (demoWalk.getD k 0) else none) ∧
    (∀ pre post, reflogDriver (pre ++ (demoState, demoWalk) :: post)
        = reflogDriver pre ++ branchIndexUpdate demoState demoWalk :: reflogDriver post) :=
  c5_force_retry_once demoState demoWalk 11 rfl (by decide)

/-! ## Idempotence of a no-change cycle (C6) -/

theorem getLast?_of_suffix (l1 l2 : List Nat) (h : l1 <:+ l2) (hne : l1 ≠ []) :
    l2.getLast? = l1.getLast? := by
  rw [List.getLast?_eq_getLast l1 hne, List.getLast?_eq_getLast l2 (h.ne_nil hne)]
  exact congrArg some (h.getLast hne).symm

theorem getLast?_eq_getD (l : List Nat) (hne : l ≠ []) :
    l.getLast? = some (l.getD (l.length - 1) 0) := by
  induction l with
  | nil => exact absurd rfl hne
  | cons a t ih =>
    cases t with
    | nil => rfl
    | cons b t2 =>
      rw [List.getLast?_cons_cons, ih (by simp)]
      simp

theorem emittedFor_some_getLast (hsh : Nat) (walk : List Nat)
    (hmem : hsh ∈ walk) (hne : walk.getLast? ≠ some hsh) :
    emittedFor (some hsh) walk ≠ [] ∧
    (emittedFor (some hsh) walk).getLast? = walk.getLast? := by
  have hq : emittedFor (some hsh) walk = (walk.dropWhile (fun x => x ≠ hsh)).tail := by
    unfold emittedFor
    simp [hmem]
  have hdne : walk.dropWhile (fun x => x ≠ hsh) ≠ [] := by
    rw [Ne, List.dropWhile_eq_nil_iff]
    intro hall
    have := hall hsh hmem
    simp at this
  have hheadc : ∀ x t, walk.dropWhile (fun x => x ≠ hsh) = x :: t → x = hsh := by
    intro x t hcase
    have hh := List.head?_dropWhile_not (fun x => decide (x ≠ hsh)) walk
    rw [hcase] at hh
    simpa using hh
  have htne : (walk.dropWhile (fun x => x ≠ hsh)).tail ≠ [] := by
    intro htail
    have hde : walk.dropWhile (fun x => x ≠ hsh) = [hsh] := by
      cases hcase : walk.dropWhile (fun x => x ≠ hsh) with
      | nil => exact absurd hcase hdne
      | cons x t =>
        have hx := hheadc x t hcase
        have hht : t = [] := by
          rw [hcase] at htail
          simpa using htail
        rw [hx, hht]
    have hsuf : walk.dropWhile (fun x => x ≠ hsh) <:+ walk := List.dropWhile_suffix _
    have := getLast?_of_suffix _ _ hsuf hdne
    rw [hde] at this
    exact hne (by simpa using this)
  refine ⟨hq ▸ htne, ?_⟩
  rw [hq]
  have hsuf2 : (walk.dropWhile (fun x => x ≠ hsh)).tail <:+ walk :=
    (List.tail_suffix _).trans (List.dropWhile_suffix _)
  exact (getLast?_of_suffix _ _ hsuf2 htne).symm

theorem fetchLatestOne_write (rows : Nat → Option Nat) (cnt L : Nat) (em : List Nat)
    (hm : em ≠ []) (hcnt : cnt = L + em.length) :
    fetchLatestOne ⟨some cnt, writeRows rows L em⟩ = em.getLast? := by
  unfold fetchLatestOne lenOf writeRows
  simp only [Option.getD_some]
  have hlen : 0 < em.length := List.length_pos.2 hm
  rw [hcnt, if_pos (by omega)]
  rw [getLast?_eq_getD em hm]
  have hidx : L + em.length - 1 - L = em.length - 1 := by omega
  rw [hidx]

theorem fetchLatestOne_after_update (s : RefState) (walk : List Nat) (hw : walk ≠ []) :
    fetchLatestOne (branchIndexUpdate s walk).state = walk.getLast? := by
  have hwempty : walk.isEmpty = false := by simpa [List.isEmpty_iff] using hw
  by_cases he : earlyFor (fetchLatestOne s) walk = true
  · rw [branchIndexUpdate_early s walk he]
    obtain ⟨t, ht1, ht2⟩ := (earlyFor_eq_true_iff _ _).1 he
    rw [ht1, ht2]
  · have he' : earlyFor (fetchLatestOne s) walk = false := by simpa using he
    by_cases hs : seenFor (fetchLatestOne s) walk = true
    · rw [branchIndexUpdate_seen s walk he' hs]
      simp only [hwempty, Bool.false_eq_true, if_false]
      cases hl : fetchLatestOne s with
      | none =>
        have hem : emittedFor none walk = walk := rfl
        rw [hem, fetchLatestOne_write s.rows _ (lenOf s) walk hw rfl]
      | some hsh =>
        rw [hl] at hs he'
        have hmem : hsh ∈ walk := by simpa [seenFor] using hs
        have hlast : walk.getLast? ≠ some hsh := by
          intro hcontra
          have : earlyFor (some hsh) walk = true :=
            (earlyFor_eq_true_iff _ _).2 ⟨hsh, rfl, hcontra⟩
          rw [this] at he'
          simp at he'
        obtain ⟨hne_em, hlast_em⟩ := emittedFor_some_getLast hsh walk hmem hlast
        rw [fetchLatestOne_write s.rows _ (lenOf s) _ hne_em rfl]
        exact hlast_em
    · have hs' : seenFor (fetchLatestOne s) walk = false := by simpa using hs
      rw [branchIndexUpdate_diverged s walk he' hs']
      simp only [hwempty, Bool.false_eq_true, if_false]
      rw [fetchLatestOne_write (fun _ => none) _ 0 walk hw (by simp)]

/-- Claim C6: with no upstream change, a second run of the single-ref
update is a no-op — it fetches the latest indexed commit, observes that
its hash equals the live tip (the last commit of the walk), and takes the
tips-match early return: the state is unchanged (zero new commit rows),
no retry happens, and the routine returns `Ok`. -/
theorem c6_idempotent_cycle (s : RefState) (walk : List Nat) (hw : walk ≠ []) :
    branchIndexUpdate (branchIndexUpdate s walk).state walk
      = ⟨(branchIndexUpdate s walk).state, true, false, true⟩ := by
  apply branchIndexUpdate_early
  rw [fetchLatestOne_after_update s walk hw]
  rw [earlyFor_eq_true_iff]
  exact ⟨walk.getLast hw, List.getLast?_eq_getLast walk hw, List.getLast?_eq_getLast walk hw⟩

theorem c6_idempotent_cycle_witness :
    branchIndexUpdate (branchIndexUpdate ⟨none, fun _ => none⟩ [7, 8]).state [7, 8]
      = ⟨(branchIndexUpdate ⟨none, fun _ => none⟩ [7, 8]).state, true, false, true⟩ :=
  c6_idempotent_cycle ⟨none, fun _ => none⟩ [7, 8] (by decide)

/-! ## CommitTree::fetch_latest (C10)

`fetch_latest(amount, offset)` reads `latest_commit_id = len()`, builds
`start_key = prefix ‖ (len - offset - amount)` and
`end_key = prefix ‖ (len - offset)` with `u64::saturating_sub`, and
iterates the half-open key range `[start_key, end_key)` from its end
(`IteratorMode::End`), i.e. by descending sequence number.  Big-endian
sequence encoding makes numeric order agree with the bytewise key order,
so the candidate keys are modelled by their sequence numbers. -/

/-- The sequence numbers scanned by `fetch_latest`, in iteration
(descending) order. -/
def fetchLatestKeys (s : RefState) (amount offset : Nat) : List Nat :=
  (List.range' (lenOf s - offset - amount)
    ((lenOf s - offset) - (lenOf s - offset - amount))).reverse

/-- `CommitTree::fetch_latest`: the commits stored at the scanned keys,
in iteration order. -/
def fetchLatest (s : RefState) (amount offset : Nat) : List Nat :=
  (fetchLatestKeys s amount offset).filterMap s.rows

theorem filterMap_eq_map_of_isSome (f : Nat → Option Nat) (l : List Nat)
    (h : ∀ x ∈ l, (f x).isSome) :
    l.filterMap f = l.map (fun x => (f x).getD 0) := by
  induction l with
  | nil => rfl
  | cons a t ih =>
    have ha : (f a).isSome := h a (List.mem_cons_self a t)
    obtain ⟨v, hv⟩ := Option.isSome_iff_exists.1 ha
    rw [List.filterMap_cons, List.map_cons, hv]
    simp only [Option.getD_some]
    rw [ih (fun x hx => h x (List.mem_cons_of_mem a hx))]

theorem chain_ascending_range (lo n : Nat) :
    List.Chain' (fun a b => b = a + 1) (List.range' lo n) := by
  induction n generalizing lo with
  | zero => simp
  | succ n ih =>
    rw [List.range'_succ]
    cases n with
    | zero => simp
    | succ m =>
      rw [List.range'_succ]
      rw [List.chain'_cons]
      exact ⟨rfl, by rw [← List.range'_succ]; exact ih (lo + 1)⟩

/-- Claim C10: for a commit tree with `count` indexed commits (rows exactly
at `[0, count)`) and any u64 `amount` and `offset`, `fetch_latest` returns
at most `amount` commits — exactly `min amount (count - offset)` — in
strictly descending consecutive sequence order starting just below
`count - offset`, and returns the empty vector whenever
`offset ≥ count`; the bounds use saturating subtraction, so every
argument combination is defined. -/
theorem c10_fetch_latest_bounds (s : RefState) (amount offset : Nat) (h : CommitInv s) :
    (fetchLatest s amount offset).length = min amount (lenOf s - offset) ∧
    (fetchLatest s amount offset).length ≤ amount ∧
    (lenOf s ≤ offset → fetchLatest s amount offset = []) ∧
    List.Chain' (fun a b => a = b + 1) (fetchLatestKeys s amount offset) ∧
    (∀ k ∈ fetchLatestKeys s amount offset, k < lenOf s - offset ∧ (s.rows k).isSome) ∧
    (fetchLatestKeys s amount offset ≠ [] →
      (fetchLatestKeys s amount offset).head? = some (lenOf s - offset - 1)) ∧
    fetchLatest s amount offset
      = (fetchLatestKeys s amount offset).map (fun k => (s.rows k).getD 0) := by
  have hkeys : fetchLatestKeys s amount offset
      = (List.range' (lenOf s - offset - amount)
          ((lenOf s - offset) - (lenOf s - offset - amount))).reverse := rfl
  have hmem0 : ∀ k ∈ fetchLatestKeys s amount offset,
      lenOf s - offset - amount ≤ k ∧ k < lenOf s - offset := by
    intro k hk
    rw [hkeys, List.mem_reverse, List.mem_range'] at hk
    obtain ⟨i, hi, rfl⟩ := hk
    omega
  have hsome : ∀ k ∈ fetchLatestKeys s amount offset, (s.rows k).isSome := by
    intro k hk
    have hk2 := (hmem0 k hk).2
    rw [h k]
    omega
  have hmap : fetchLatest s amount offset
      = (fetchLatestKeys s amount offset).map (fun k => (s.rows k).getD 0) :=
    filterMap_eq_map_of_isSome s.rows _ hsome
  have hlen : (fetchLatest s amount offset).length = min amount (lenOf s - offset) := by
    rw [hmap, List.length_map, hkeys, List.length_reverse, List.length_range']
    omega
  refine ⟨hlen, by rw [hlen]; omega, ?_, ?_, fun k hk => ⟨(hmem0 k hk).2, hsome k hk⟩, ?_, hmap⟩
  · intro hoff
    have hz : (lenOf s - offset) - (lenOf s - offset - amount) = 0 := by omega
    rw [hmap, hkeys, hz]
    rfl
  · rw [hkeys]
    exact List.chain'_reverse.mpr (chain_ascending_range _ _)
  · intro hne
    have hn0 : (lenOf s - offset) - (lenOf s - offset - amount) ≠ 0 := by
      intro h0
      apply hne
      rw [hkeys, h0]
      rfl
    obtain ⟨m, hm⟩ : ∃ m, (lenOf s - offset) - (lenOf s - offset - amount) = m + 1 :=
      ⟨(lenOf s - offset) - (lenOf s - offset - amount) - 1, by omega⟩
    rw [hkeys, List.head?_reverse, hm, List.range'_concat, List.getLast?_concat]
    congr 1
    omega

/-- A ref with five indexed commits, used to exercise `fetch_latest`. -/
def denseState : RefState := ⟨some 5, fun k => if k < 5 then some (100 + k) else none⟩

theorem c10_fetch_latest_bounds_witness :
    (fetchLatest denseState 3 1).length = min 3 (lenOf denseState - 1) ∧
    (fetchLatest denseState 3 1).length ≤ 3 ∧
    (lenOf denseState ≤ 1 → fetchLatest denseState 3 1 = []) ∧
    List.Chain' (fun a b => a = b + 1) (fetchLatestKeys denseState 3 1) ∧
    (∀ k ∈ fetchLatestKeys denseState 3 1,
      k < lenOf denseState - 1 ∧ (denseState.rows k).isSome) ∧
    (fetchLatestKeys denseState 3 1 ≠ [] →
      (fetchLatestKeys denseState 3 1).head? = some (lenOf denseState - 1 - 1)) ∧
    fetchLatest denseState 3 1
      = (fetchLatestKeys denseState 3 1).map (fun k => (denseState.rows k).getD 0) :=
  c10_fetch_latest_bounds denseState 3 1
    (fun k => by by_cases hk : k < 5 <;> simp [denseState, lenOf, hk])

/-! ## Schema gate at startup (C4)

`open_db` (src/main.rs) loops: open the store, read key `schema_version`
from the default family; if absent, write the compiled constant
`SCHEMA_VERSION` and proceed; if present and equal, proceed; if present
and different, warn, drop the handle, destroy the store directory, and
loop to re-open. -/

/-- The compiled schema version constant
(src/database/schema/mod.rs, `SCHEMA_VERSION`). -/
def SCHEMA_VERSION : String := "1"

/-- The store as the schema gate sees it: the `schema_version` key of the
default family, plus the rest of the persisted contents (abstracted). -/
structure DbState where
  schemaVersion : Option String
  contents : List String

/-- `rocksdb::DB::destroy`: everything on disk is gone. -/
def destroyDb : DbState := ⟨none, []⟩

/-- One iteration of the `open_db` loop.  Returns the store state and
whether the loop breaks (`true` = proceed with this handle). -/
def openDbStep (d : DbState) : DbState × Bool :=
  match d.schemaVersion with
  | some v => if v = SCHEMA_VERSION then (d, true) else (destroyDb, false)
  | none => (⟨some SCHEMA_VERSION, d.contents⟩, true)

/-- The `open_db` loop with fuel: `none` means the loop did not finish
within the given number of iterations. -/
def openDbLoop : Nat → DbState → Option DbState
  | 0, _ => none
  | n + 1, d =>
    match openDbStep d with
    | (d1, true) => some d1
    | (d1, false) => openDbLoop n d1

/-- Claim C4: the schema gate terminates within two iterations from any
store state, and behaves by cases: an absent `schema_version` is written
as the compiled constant with the rest of the store kept; an equal
version proceeds with the store untouched; a different version destroys
the store and re-opens it fresh.  In every case the persisted
`schema_version` immediately after startup equals the compiled constant,
and extra fuel does not change the outcome. -/
theorem c4_schema_gate (d : DbState) :
    openDbLoop 2 d
      = some (match d.schemaVersion with
          | none => ⟨some SCHEMA_VERSION, d.contents⟩
          | some v => if v = SCHEMA_VERSION then d else ⟨some SCHEMA_VERSION, []⟩) ∧
    (∀ r, openDbLoop 2 d = some r → r.schemaVersion = some SCHEMA_VERSION) ∧
    (∀ extra, openDbLoop (extra + 2) d = openDbLoop 2 d) := by
  refine ⟨?_, ?_, ?_⟩
  · cases hv : d.schemaVersion with
    | none => simp [openDbLoop, openDbStep, hv]
    | some v =>
      by_cases he : v = SCHEMA_VERSION <;>
        simp [openDbLoop, openDbStep, destroyDb, hv, he]
  · intro r hr
    cases hv : d.schemaVersion with
    | none =>
      simp [openDbLoop, openDbStep, hv] at hr
      rw [← hr]
    | some v =>
      by_cases he : v = SCHEMA_VERSION
      · simp [openDbLoop, openDbStep, hv, he] at hr
        rw [← hr, hv, he]
      · simp [openDbLoop, openDbStep, destroyDb, hv, he] at hr
        rw [← hr]
  · intro extra
    cases hv : d.schemaVersion with
    | none => simp [openDbLoop, openDbStep, hv]
    | some v =>
      by_cases he : v = SCHEMA_VERSION <;>
        simp [openDbLoop, openDbStep, destroyDb, hv, he]

theorem c4_schema_gate_witness :
    openDbLoop 2 ⟨some "0", ["x"]⟩
      = some (match (DbState.mk (some "0") ["x"]).schemaVersion with
          | none => ⟨some SCHEMA_VERSION, (DbState.mk (some "0") ["x"]).contents⟩
          | some v => if v = SCHEMA_VERSION then ⟨some "0", ["x"]⟩
              else ⟨some SCHEMA_VERSION, []⟩) ∧
    (∀ r, openDbLoop 2 ⟨some "0", ["x"]⟩ = some r →
      r.schemaVersion = some SCHEMA_VERSION) ∧
    (∀ extra, openDbLoop (extra + 2) ⟨some "0", ["x"]⟩
      = openDbLoop 2 ⟨some "0", ["x"]⟩) :=
  c4_schema_gate ⟨some "0", ["x"]⟩

/-! ## Repository description handling (C7)

`update_repository_metadata` (src/database/indexer.rs, lines 80-83) reads
the `description` file with `std::fs::read(..).unwrap_or_default()`
(missing file = empty byte vector), decodes it with
`String::from_utf8(..).ok()` and keeps it with
`.filter(|v| !v.is_empty())`.  The file is modelled as
`Option (Option String)`: `none` = file missing, `some none` = bytes that
are not valid UTF-8, `some (some s)` = bytes decoding to `s`. -/

/-- The `description` field computed by the metadata refresher. -/
def readDescription (file : Option (Option String)) : Option String :=
  match (match file with | none => some "" | some d => d) with
  | some s => if s = "" then none else some s
  | none => none

/-- The canned placeholder git writes into a fresh repository's
`description` file. -/
def cannedDescription : String :=
  "Unnamed repository; edit this file \x27description\x27 to name the repository.\n"

/-- Claim C7 counterexample: a `description` file containing exactly the
canned `Unnamed repository...` placeholder is stored verbatim as the
repository's description — the code has no placeholder trimming, so the
description is not absent as the claim requires. -/
theorem c7_description_counterexample :
    readDescription (some (some cannedDescription)) = some cannedDescription ∧
    cannedDescription ≠ "" := by
  constructor
  · rfl
  · decide

/-- Claim C7 (amended): the stored description is absent exactly when the
`description` file is missing, is not valid UTF-8, or is empty; in every
other case — the canned `Unnamed repository...` placeholder included —
it equals the UTF-8 contents of the file verbatim. -/
theorem c7_description_amended (file : Option (Option String)) :
    (readDescription file = none
        ↔ (file = none ∨ file = some none ∨ file = some (some ""))) ∧
    (∀ s : String, s ≠ "" → readDescription (some (some s)) = some s) := by
  constructor
  · cases file with
    | none => simp [readDescription]
    | some d =>
      cases d with
      | none => simp [readDescription]
      | some s =>
        by_cases hs : s = "" <;> simp [readDescription, hs]
  · intro s hs
    simp [readDescription, hs]

theorem c7_description_amended_witness :
    readDescription (some (some "hello")) = some "hello" :=
  (c7_description_amended (some (some "hello"))).2 "hello" (by decide)

/-! ## Column families opened at startup (C8) -/

/-- Modelled from the spec: the column family name constants
(`REPOSITORY_FAMILY` and friends) live in a revision of
src/database/schema/prefixes.rs that is absent from the snapshot (the
snapshot's prefixes.rs is an older sled-era file without them, yet
main.rs and the schema modules import them); §4.C and §6 of the spec give
the family names as repository, commit, commit_count, tag, reference,
tree, tree_item. -/
def REPOSITORY_FAMILY : String := "repository"

/-- Modelled from the spec: see `REPOSITORY_FAMILY`. -/
def COMMIT_FAMILY : String := "commit"

/-- Modelled from the spec: see `REPOSITORY_FAMILY`. -/
def COMMIT_COUNT_FAMILY : String := "commit_count"

/-- Modelled from the spec: see `REPOSITORY_FAMILY`. -/
def TAG_FAMILY : String := "tag"

/-- Modelled from the spec: see `REPOSITORY_FAMILY`. -/
def REFERENCE_FAMILY : String := "reference"

/-- Modelled from the spec: see `REPOSITORY_FAMILY`. -/
def TREE_FAMILY : String := "tree"

/-- Modelled from the spec: see `REPOSITORY_FAMILY`. -/
def TREE_ITEM_FAMILY : String := "tree_item"

/-- The column families `open_db` (src/main.rs, lines 253-263) passes to
`rocksdb::DB::open_cf_with_opts`, in source order. -/
def openColumnFamilies : List String :=
  [COMMIT_FAMILY, REPOSITORY_FAMILY, TAG_FAMILY, REFERENCE_FAMILY, COMMIT_COUNT_FAMILY]

/-- The column families the spec requires at open. -/
def specColumnFamilies : List String :=
  [REPOSITORY_FAMILY, COMMIT_FAMILY, COMMIT_COUNT_FAMILY, TAG_FAMILY, REFERENCE_FAMILY,
   TREE_FAMILY, TREE_ITEM_FAMILY]

/-- `rocksdb::DB::cf_handle`: a handle exists only for a family the store
was opened with. -/
def cfHandle (opened : List String) (name : String) : Option String :=
  if name ∈ opened then some name else none

/-- The column-family lookup of `Tree::insert`
(src/database/schema/tree.rs, lines 26-29):
`database.cf_handle(TREE_FAMILY).context("tree column family missing")?`. -/
def treeInsertCf : Except String String :=
  match cfHandle openColumnFamilies TREE_FAMILY with
  | some handle => Except.ok handle
  | none => Except.error "tree column family missing"

/-- Claim C8: the claim lists seven families (repository, commit,
commit_count, tag, reference, tree, tree_item) as required at open, but
`open_db` opens only five — `tree` and `tree_item` are not in its list —
so the very first `Tree::insert` of an indexing cycle fails with
"tree column family missing".  Every family `open_db` does open is among
the seven. -/
theorem c8_missing_tree_family :
    (TREE_FAMILY ∈ openColumnFamilies) = False ∧
    (TREE_ITEM_FAMILY ∈ openColumnFamilies) = False ∧
    treeInsertCf = Except.error "tree column family missing" ∧
    (openColumnFamilies = specColumnFamilies) = False ∧
    openColumnFamilies.all (fun f => decide (f ∈ specColumnFamilies)) = true := by
  refine ⟨by simp only [eq_iff_iff, iff_false]; decide,
    by simp only [eq_iff_iff, iff_false]; decide, ?_,
    by simp only [eq_iff_iff, iff_false]; decide, by decide⟩
  rfl

/-! ## TreeItem prefix scans (C2)

`TreeItem::insert` (src/database/schema/tree.rs, lines 134-156) keys an
entry by `digest.to_ne_bytes() ‖ depth.to_be_bytes() ‖ path` where
`depth` is the number of `/` bytes in the path (a usize, 8 bytes);
`SortedTree::insert` (lines 63-81) stores the directory summary in the
same `tree_item` family under the bare 8-byte key `digest.to_ne_bytes()`.
`TreeItem::find_prefix` (lines 183-246) seeks a prefix iterator (no
prefix extractor is configured for the family, so this is a plain seek:
all keys ≥ the seek key, ascending), bounds it with a `take_while` on a
guard prefix, and strips the first 16 bytes of each returned key.  In the
`None` arm the guard is `digest.to_be_bytes()` while the seek key is
`digest.to_ne_bytes()`; in the `Some` arms the guard is the seek buffer
itself. -/

/-- `memchr::memchr_iter(b'/', path).count()`: the depth of a path. -/
def slashCount (path : List Nat) : Nat := path.count 47

/-- The `tree_item` key of a TreeItem row. -/
def treeItemKey (digest : Nat) (path : List Nat) : List Nat :=
  neBytes digest ++ beBytes 8 (slashCount path) ++ path

/-- The `tree_item` key of a SortedTree row. -/
def sortedTreeKey (digest : Nat) : List Nat := neBytes digest

/-- A seek on a key-sorted family: every entry at or after the seek key,
in ascending key order. -/
def seekFrom (store : List (List Nat × Nat)) (seek : List Nat) :
    List (List Nat × Nat) :=
  store.dropWhile (fun kv => lexLtB kv.1 seek)

/-- `TreeItem::find_prefix`: seek, bound with the guard prefix, strip the
16-byte `digest ‖ depth` header off each key. -/
def findTreeItems (store : List (List Nat × Nat)) (digest : Nat)
    (pfx : Option (List Nat)) : List (List Nat × Nat) :=
  let seekGuard : List Nat × List Nat :=
    match pfx with
    | none => (neBytes digest, beBytes 8 digest)
    | some [] => (neBytes digest ++ beBytes 8 0, neBytes digest ++ beBytes 8 0)
    | some p =>
      (neBytes digest ++ beBytes 8 (slashCount p + 1) ++ p ++ [47],
       neBytes digest ++ beBytes 8 (slashCount p + 1) ++ p ++ [47])
  ((seekFrom store seekGuard.1).takeWhile (fun kv => startsWithB seekGuard.2 kv.1)).map
    (fun kv => (kv.1.drop 16, kv.2))

/-- Path byte strings for the demo trees. -/
def readmePath : List Nat := [82, 69, 65, 68, 77, 69]

/-- "src". -/
def srcPath : List Nat := [115, 114, 99]

/-- "top.rs". -/
def topPath : List Nat := [116, 111, 112, 46, 114, 115]

/-- "src/a.rs". -/
def srcARsPath : List Nat := [115, 114, 99, 47, 97, 46, 114, 115]

/-- "src/b/c.rs". -/
def srcBCRsPath : List Nat := [115, 114, 99, 47, 98, 47, 99, 46, 114, 115]

/-- The `tree_item` family after indexing a tree (digest 1) with the
single file README: the SortedTree row and one TreeItem row, key-sorted. -/
def demoTreeStore : List (List Nat × Nat) :=
  [(sortedTreeKey 1, 99), (treeItemKey 1 readmePath, 7)]

/-- The `tree_item` family after indexing a tree (digest 1) holding
`src` (a directory), `top.rs`, `src/a.rs` and `src/b/c.rs`, key-sorted:
depth-0 entries precede depth-1, which precede depth-2. -/
def demoTreeStore2 : List (List Nat × Nat) :=
  [(sortedTreeKey 1, 99),
   (treeItemKey 1 srcPath, 1),
   (treeItemKey 1 topPath, 2),
   (treeItemKey 1 srcARsPath, 3),
   (treeItemKey 1 srcBCRsPath, 4)]

/-- Claim C2: on the little-endian targets the code runs on,
`find_prefix(digest, None)` returns nothing at all — its `take_while`
guard is `digest.to_be_bytes()` although every key in the family begins
with `digest.to_ne_bytes()`, so the very first candidate fails the guard
— even though the family does hold the tree's README TreeItem row (whose
key, as every TreeItem key, starts with the native-endian digest).  The
`Some(prefix)` arm, whose guard is the seek buffer itself, is correct:
scanning digest 1 under prefix `src` returns exactly the direct child
`src/a.rs` — not the depth-2 descendant `src/b/c.rs`, not the depth-0
entries, and not the SortedTree row. -/
theorem c2_find_none_returns_nothing :
    (treeItemKey 1 readmePath, 7) ∈ demoTreeStore ∧
    startsWithB (neBytes 1) (treeItemKey 1 readmePath) = true ∧
    findTreeItems demoTreeStore 1 none = [] ∧
    findTreeItems demoTreeStore2 1 (some srcPath) = [(srcARsPath, 3)] := by
  refine ⟨by decide, by decide, by decide, by decide⟩
